import Mathlib

/-!
Verification of the PhotoSorter similarity–clustering–ordering core.

The Lean definitions below are shallow embeddings of the Python source:

* `computeDistanceMatrix`  — src/photosorter/similarity.py, compute_distance_matrix
* `validateArgs`           — src/photosorter/main.py, _validate_args
* `validatePipelineParameters`, `PipelineParams`, `runPipelineModel`
                           — src/engine/photosorter_core/photosorter/pipeline.py
* `buildOrderedSequence`   — src/photosorter/ordering.py, build_ordered_sequence
* `buildOrderedSequenceEngine`
                           — src/engine/photosorter_core/photosorter/ordering.py
* `cluster`                — src/photosorter/clustering.py, cluster (the n ≥ 2 path
                             delegates to sklearn AgglomerativeClustering, which is not
                             part of this repository; that part is modelled from the
                             spec, see `aggloLoop`)

Machine floats are modelled by `ℚ`; numpy arrays by Lean lists or index functions.
-/

namespace PhotoSorter

/-! ### Similarity / distance (src/photosorter/similarity.py) -/

/-- Embeds numpy `clip(x, 0.0, 2.0)`: clamp a value into the interval `[0, 2]`. -/
def clip02 (x : ℚ) : ℚ := min (max x 0) 2

/-- Embeds the temporal-adjacency term `abs(i - j) / max(n - 1, 1)` built by
`compute_distance_matrix` from `np.arange(n)` index differences. -/
def temporalTerm (n i j : Nat) : ℚ :=
  ((max i j - min i j : ℕ) : ℚ) / ((max (n - 1) 1 : ℕ) : ℚ)

/-- Embeds `compute_distance_matrix(similarity, temporal_weight)` from
src/photosorter/similarity.py: base distance `clip(1 - similarity, 0, 2)`,
plus `temporal_weight * temporal` when `temporal_weight > 0`.  The `n × n`
matrices are represented as functions on indices. -/
def computeDistanceMatrix (n : Nat) (similarity : Nat → Nat → ℚ)
    (temporal_weight : ℚ) (i j : Nat) : ℚ :=
  if 0 < temporal_weight then
    clip02 (1 - similarity i j) + temporal_weight * temporalTerm n i j
  else
    clip02 (1 - similarity i j)

/-! ### Parameter validation (src/photosorter/main.py and
src/engine/photosorter_core/photosorter/pipeline.py) -/

/-- Embeds `_validate_args` from src/photosorter/main.py (the legacy CLI):
it checks only `distance_threshold <= 0`, `temporal_weight < 0` and
`batch_size < 1`; a raised `SystemExit` is modelled as `Except.error`. -/
def validateArgs (distance_threshold temporal_weight : ℚ) (batch_size : Int) :
    Except String Unit :=
  if distance_threshold ≤ 0 then Except.error "Error: --distance-threshold must be > 0"
  else if temporal_weight < 0 then Except.error "Error: --temporal-weight must be >= 0"
  else if batch_size < 1 then Except.error "Error: --batch-size must be >= 1"
  else Except.ok ()

/-- Embeds `VALID_POOLING_OPTIONS` from pipeline.py. -/
def VALID_POOLING_OPTIONS : List String := ["cls", "avg", "cls+avg"]

/-- Embeds `VALID_PREPROCESS_OPTIONS` from pipeline.py. -/
def VALID_PREPROCESS_OPTIONS : List String := ["letterbox", "timm"]

/-- Embeds `VALID_LINKAGE_OPTIONS` from pipeline.py. -/
def VALID_LINKAGE_OPTIONS : List String := ["average", "complete", "single"]

/-- Embeds `VALID_DEVICE_OPTIONS` from pipeline.py. -/
def VALID_DEVICE_OPTIONS : List String := ["auto", "cpu", "mps", "cuda"]

/-- Embeds the dedicated `PipelineArgumentError(ValueError)` exception kind of
pipeline.py, carrying its message. -/
structure PipelineArgumentError where
  msg : String
deriving DecidableEq, Repr

/-- True when an optional categorical parameter is provided and lies outside
its valid set — the `x is not None and x not in VALID` pattern of
`validate_pipeline_parameters`. -/
def optionInvalid (v : Option String) (valid : List String) : Bool :=
  match v with
  | none => false
  | some s => !(valid.contains s)

/-- Embeds `validate_pipeline_parameters` from
src/engine/photosorter_core/photosorter/pipeline.py, checking the conditions
in source order; a raised `PipelineArgumentError` is `Except.error`. -/
def validatePipelineParameters (distance_threshold temporal_weight : ℚ)
    (batch_size : Int) (pooling preprocess linkage device : Option String) :
    Except PipelineArgumentError Unit :=
  if distance_threshold ≤ 0 then
    Except.error ⟨"--distance-threshold must be > 0"⟩
  else if 2 < distance_threshold then
    Except.error ⟨"--distance-threshold must be <= 2.0 (cosine distance range)"⟩
  else if temporal_weight < 0 then
    Except.error ⟨"--temporal-weight must be >= 0"⟩
  else if batch_size < 1 then
    Except.error ⟨"--batch-size must be >= 1"⟩
  else if optionInvalid pooling VALID_POOLING_OPTIONS then
    Except.error ⟨"--pooling must be one of the valid pooling options"⟩
  else if optionInvalid preprocess VALID_PREPROCESS_OPTIONS then
    Except.error ⟨"--preprocess must be one of the valid preprocess options"⟩
  else if optionInvalid linkage VALID_LINKAGE_OPTIONS then
    Except.error ⟨"--linkage must be one of the valid linkage options"⟩
  else if optionInvalid device VALID_DEVICE_OPTIONS then
    Except.error ⟨"--device must be one of the valid device options"⟩
  else Except.ok ()

/-- Embeds the `PipelineParams` dataclass of pipeline.py (fields only; the
`__post_init__` validation is performed by `mkPipelineParams`). -/
structure PipelineParams where
  distance_threshold : ℚ
  temporal_weight : ℚ
  batch_size : Int
  pooling : Option String
  preprocess : Option String
  linkage : Option String
  device : Option String
deriving DecidableEq, Repr

/-- Embeds constructing a `PipelineParams`: `__post_init__` calls
`validate_pipeline_parameters`, so construction fails exactly when validation
raises. -/
def mkPipelineParams (distance_threshold temporal_weight : ℚ) (batch_size : Int)
    (pooling preprocess linkage device : Option String) :
    Except PipelineArgumentError PipelineParams :=
  (validatePipelineParameters distance_threshold temporal_weight batch_size
      pooling preprocess linkage device).map
    (fun _ => ⟨distance_threshold, temporal_weight, batch_size,
               pooling, preprocess, linkage, device⟩)

/-- Models the caller-facing pipeline entry: parameters are validated at
`PipelineParams` construction and only then does `run_pipeline_shared` perform
the numeric work (discover, embed, similarity, distance, clustering, ordering),
abstracted here as an arbitrary function `work` so that theorems can show the
error path is independent of it. -/
def runPipelineModel {β : Type} (work : PipelineParams → β)
    (distance_threshold temporal_weight : ℚ) (batch_size : Int)
    (pooling preprocess linkage device : Option String) :
    Except PipelineArgumentError β :=
  (mkPipelineParams distance_threshold temporal_weight batch_size
      pooling preprocess linkage device).map work

/-- Returns `true` on `Except.ok`, `false` on `Except.error`. -/
def exceptOk {ε α : Type} : Except ε α → Bool
  | Except.ok _ => true
  | Except.error _ => false

/-- Extracts the error of an `Except`, if any. -/
def errOf {ε α : Type} : Except ε α → Option ε
  | Except.ok _ => none
  | Except.error e => some e

/-! ### Ordering (src/photosorter/ordering.py and
src/engine/photosorter_core/photosorter/ordering.py) -/

/-- Embeds the frozen `OrderedPhoto` dataclass common to both ordering modules.
`α` is the item/path type. -/
structure OrderedPhoto (α : Type) where
  position : Nat
  original_index : Int
  path : α
  cluster_id : Int
deriving DecidableEq, Repr

/-- The distinct labels in first-occurrence order: the key order of the
`defaultdict` built by the `for idx, label in enumerate(labels)` loop, since a
Python dict lists its keys in insertion order. -/
def firstOccKeys : List Int → List Int
  | [] => []
  | x :: xs => x :: (firstOccKeys xs).filter (fun y => y != x)

/-- The member list `clusters[c]` built by the enumerate loop: the item indices
carrying label `c`, in increasing (input) order. -/
def clusterMembers (labels : List Int) (c : Int) : List Nat :=
  (List.range labels.length).filter (fun i => labels.getD i 0 == c)

/-- The sort key `clusters[cid][0]` used by `build_ordered_sequence`: the first
(equivalently smallest) item index carrying label `c`. -/
def firstIdx (labels : List Int) (c : Int) : Nat :=
  (clusterMembers labels c).headD 0

/-- Stable insertion of one element into a key-sorted list. -/
def insertByKey (key : Int → Nat) (c : Int) : List Int → List Int
  | [] => [c]
  | x :: xs => if key c ≤ key x then c :: x :: xs else x :: insertByKey key c xs

/-- Stable sort by a `Nat` key, embedding Python `sorted(l, key=key)` (here the
keys of distinct clusters are distinct, so any stable sort gives the same
list). -/
def sortByKey (key : Int → Nat) (l : List Int) : List Int :=
  l.foldr (insertByKey key) []

/-- The `sorted_cluster_ids` list of both `build_ordered_sequence`
implementations: cluster labels sorted by the earliest member index. -/
def sortedClusterIds (labels : List Int) : List Int :=
  sortByKey (firstIdx labels) (firstOccKeys labels)

/-- The item indices in final emission order: clusters in `sortedClusterIds`
order, members of each cluster in input order — the iteration order of the
double `for cid in sorted_cluster_ids: for idx in clusters[cid]` loop. -/
def emittedIndices (labels : List Int) : List Nat :=
  (sortedClusterIds labels).flatMap (fun c => clusterMembers labels c)

/-- The record-emission loop shared by both implementations: walks the emitted
item indices with a running `position` counter, producing one `OrderedPhoto`
per index.  `F` gives the `original_index` field (`idx` itself in
src/photosorter/ordering.py, `original_indices[idx]` in the engine version). -/
def emitLoop {α : Type} [Inhabited α] (paths : List α) (labels : List Int)
    (F : Nat → Int) : Nat → List Nat → List (OrderedPhoto α)
  | _, [] => []
  | pos, i :: rest =>
    ⟨pos, F i, paths.getD i default, labels.getD i 0⟩ ::
      emitLoop paths labels F (pos + 1) rest

/-- Embeds `build_ordered_sequence(paths, labels)` from
src/photosorter/ordering.py.  Out-of-range list accesses (a Python
`IndexError`, reachable only when `labels` is longer than `paths`) are not
modelled as errors; every theorem below stays in the in-range regime. -/
def buildOrderedSequence {α : Type} [Inhabited α] (paths : List α)
    (labels : List Int) : List (OrderedPhoto α) :=
  emitLoop paths labels (fun i => Int.ofNat i) 0 (emittedIndices labels)

/-- Embeds `build_ordered_sequence(paths, labels, original_indices=...)` from
src/engine/photosorter_core/photosorter/ordering.py: `original_indices`
defaults to `range(len(paths))`, a length mismatch raises `ValueError`
(modelled as `Except.error`), and otherwise the records carry
`original_indices[idx]`. -/
def buildOrderedSequenceEngine {α : Type} [Inhabited α] (paths : List α)
    (labels : List Int) (original_indices : Option (List Int)) :
    Except String (List (OrderedPhoto α)) :=
  let origIdx := original_indices.getD ((List.range paths.length).map Int.ofNat)
  if origIdx.length ≠ paths.length then
    Except.error "original_indices length must match paths length"
  else
    Except.ok (emitLoop paths labels (fun i => origIdx.getD i 0) 0
      (emittedIndices labels))

/-- Expresses the spec phrase "the minimum original item-index present in each
group": the least `original_indices` value among the members of cluster `c`
(`0` for an absent cluster).  Used only to state claims about cluster
ordering; it is spec language, not source code. -/
def clusterMinOrig (labels original_indices : List Int) (c : Int) : Int :=
  match (clusterMembers labels c).map (fun i => original_indices.getD i 0) with
  | [] => 0
  | x :: xs => xs.foldl min x

/-! ### Clustering (src/photosorter/clustering.py) -/

/-- The three linkage strategies accepted by `cluster`. -/
inductive Linkage
  | average
  | complete
  | single
deriving DecidableEq, Repr

/-- Embeds the frozen `ClusterResult` dataclass of clustering.py. -/
structure ClusterResult where
  labels : List Int
  n_clusters : Nat
deriving DecidableEq, Repr

/-- All pairwise distances between members of two clusters. -/
def pairDists (d : Nat → Nat → ℚ) (a b : List Nat) : List ℚ :=
  a.flatMap (fun i => b.map (fun j => d i j))

/-- Minimum of a list of rationals (`0` if empty). -/
def listMin : List ℚ → ℚ
  | [] => 0
  | x :: xs => xs.foldl min x

/-- Maximum of a list of rationals (`0` if empty). -/
def listMax : List ℚ → ℚ
  | [] => 0
  | x :: xs => xs.foldl max x

/-- Modelled from the spec: the linkage distance between two clusters —
"average = average inter-cluster distance; complete = maximum pairwise
distance …; single = minimum pairwise distance". -/
def linkDist (link : Linkage) (d : Nat → Nat → ℚ) (a b : List Nat) : ℚ :=
  match link with
  | Linkage.single => listMin (pairDists d a b)
  | Linkage.complete => listMax (pairDists d a b)
  | Linkage.average => (pairDists d a b).sum / ((pairDists d a b).length : ℚ)

/-- All ordered pairs of list elements (earlier element first), the
enumeration order used to break ties deterministically. -/
def allPairs {β : Type} : List β → List (β × β)
  | [] => []
  | x :: xs => xs.map (fun y => (x, y)) ++ allPairs xs

/-- First element attaining the minimal value of `f` (ties broken towards the
earlier element). -/
def argminBy {β : Type} (f : β → ℚ) : List β → Option β
  | [] => none
  | x :: xs =>
    match argminBy f xs with
    | none => some x
    | some y => if f x ≤ f y then some x else some y

/-- Modelled from the spec: one step of bottom-up agglomerative clustering —
"repeatedly merge the two clusters with smallest linkage-distance until the
smallest available merge distance exceeds `distance_threshold`, or only one
cluster remains" (the sklearn `AgglomerativeClustering` call in clustering.py
is an external library, absent from this repository; tie-breaking, which the
spec leaves open, is towards the earliest pair).  Returns `none` when the
algorithm stops, otherwise the state with the chosen pair merged. -/
def mergeStep (link : Linkage) (d : Nat → Nat → ℚ) (t : ℚ)
    (s : List (List Nat)) : Option (List (List Nat)) :=
  if s.length ≤ 1 then none
  else
    (argminBy (fun p => linkDist link d p.1.2 p.2.2) (allPairs s.enum)).bind
      (fun p =>
        if t < linkDist link d p.1.2 p.2.2 then none
        else some ((s.set p.1.1 (p.1.2 ++ p.2.2)).eraseIdx p.2.1))

/-- Modelled from the spec: the agglomerative merge loop, fuelled by the item
count (each merge removes one cluster, so `n` steps always suffice). -/
def aggloLoop (link : Linkage) (d : Nat → Nat → ℚ) (t : ℚ) :
    Nat → List (List Nat) → List (List Nat)
  | 0, s => s
  | fuel + 1, s =>
    match mergeStep link d t s with
    | none => s
    | some s2 => aggloLoop link d t fuel s2

/-- The singleton starting state: each item its own cluster. -/
def initialClusters (n : Nat) : List (List Nat) :=
  (List.range n).map (fun i => [i])

/-- Embeds `cluster(dist, distance_threshold, linkage)` from
src/photosorter/clustering.py: for `n < 2` return `np.zeros(n)` labels with
`n_clusters = max(n, 0)`; for `n ≥ 2` run agglomerative clustering (the
sklearn call, modelled from the spec via `aggloLoop`).  `labels[i]` is the
index of the surviving group containing `i`, and `n_clusters` is the number of
surviving groups, matching `len(set(labels))` since the groups partition the
items. -/
def cluster (n : Nat) (d : Nat → Nat → ℚ) (distance_threshold : ℚ)
    (linkage : Linkage) : ClusterResult :=
  if n < 2 then ⟨List.replicate n 0, n⟩
  else
    let final := aggloLoop linkage d distance_threshold n (initialClusters n)
    ⟨(List.range n).map
        (fun i => Int.ofNat (final.findIdx (fun c => c.contains i))),
      final.length⟩

/-! ### Lemmas about the distance matrix -/

/-- The clipped base distance is non-negative. -/
theorem clip02_nonneg (x : ℚ) : 0 ≤ clip02 x := by
  rw [clip02, le_min_iff]
  exact ⟨le_max_right _ _, by norm_num⟩

/-- The clipped base distance is at most `2`. -/
theorem clip02_le_two (x : ℚ) : clip02 x ≤ 2 := min_le_right _ _

/-- The temporal normaliser is positive. -/
theorem temporal_denom_pos (n : Nat) : (0 : ℚ) < ((max (n - 1) 1 : ℕ) : ℚ) := by
  have h : 0 < max (n - 1) 1 := by omega
  exact_mod_cast h

/-- The temporal term is non-negative. -/
theorem temporalTerm_nonneg (n i j : Nat) : 0 ≤ temporalTerm n i j :=
  div_nonneg (Nat.cast_nonneg _) (Nat.cast_nonneg _)

/-- For in-range indices the temporal term is at most `1`. -/
theorem temporalTerm_le_one (n i j : Nat) (hi : i < n) (hj : j < n) :
    temporalTerm n i j ≤ 1 := by
  rw [temporalTerm, div_le_one (temporal_denom_pos n)]
  have h : max i j - min i j ≤ max (n - 1) 1 := by omega
  exact_mod_cast h

/-- C6 (amended): for every similarity matrix, every `temporal_weight ≥ 0` and
every in-range entry, the distance returned by `compute_distance_matrix` lies
in `[0, 2 + temporal_weight]` — hence in `[0, 2]` exactly when the temporal
weight is zero; in particular a similarity above `1.0` still yields a
non-negative distance. -/
theorem compute_distance_bounds (n : Nat) (sim : Nat → Nat → ℚ) (w : ℚ)
    (i j : Nat) (hw : 0 ≤ w) (hi : i < n) (hj : j < n) :
    0 ≤ computeDistanceMatrix n sim w i j
    ∧ computeDistanceMatrix n sim w i j ≤ 2 + w := by
  unfold computeDistanceMatrix
  split
  · constructor
    · exact add_nonneg (clip02_nonneg _) (mul_nonneg hw (temporalTerm_nonneg n i j))
    · calc clip02 (1 - sim i j) + w * temporalTerm n i j
          ≤ 2 + w * 1 :=
            add_le_add (clip02_le_two _)
              (mul_le_mul_of_nonneg_left (temporalTerm_le_one n i j hi hj) hw)
        _ = 2 + w := by ring
  · exact ⟨clip02_nonneg _, le_trans (clip02_le_two _) (by linarith)⟩

/-- C6 (counterexample to the claim as stated): with `temporal_weight = 1` and
a similarity of `-1` between the two items, the distance entry is `3`, outside
the interval `[0, 2]` required by the claim. -/
theorem compute_distance_exceeds_two_counterexample :
    computeDistanceMatrix 2 (fun _ _ => -1) 1 0 1 = 3
    ∧ ¬ computeDistanceMatrix 2 (fun _ _ => -1) 1 0 1 ≤ 2 := by
  constructor
  · norm_num [computeDistanceMatrix, clip02, temporalTerm]
  · norm_num [computeDistanceMatrix, clip02, temporalTerm]

/-- C6 witness: a concrete instance of `compute_distance_bounds`, with the
similarity marginally above `1.0`. -/
theorem compute_distance_bounds_witness :
    (0 : ℚ) ≤ 1/2
    ∧ (0 ≤ computeDistanceMatrix 2 (fun _ _ => 3/2) (1/2) 0 1
        ∧ computeDistanceMatrix 2 (fun _ _ => 3/2) (1/2) 0 1 ≤ 2 + 1/2) :=
  ⟨by norm_num,
   compute_distance_bounds 2 (fun _ _ => 3/2) (1/2) 0 1 (by norm_num)
     (by norm_num) (by norm_num)⟩

/-- C7: at equal similarity and positive temporal weight, a strictly larger
index separation gives a strictly larger distance. -/
theorem compute_distance_temporal_monotone (n : Nat) (sim : Nat → Nat → ℚ)
    (w : ℚ) (i j k l : Nat) (hw : 0 < w) (hs : sim i j = sim k l)
    (hsep : max k l - min k l < max i j - min i j) :
    computeDistanceMatrix n sim w k l < computeDistanceMatrix n sim w i j := by
  have hM := temporal_denom_pos n
  have hcast : ((max k l - min k l : ℕ) : ℚ) < ((max i j - min i j : ℕ) : ℚ) := by
    exact_mod_cast hsep
  have hlt : temporalTerm n k l < temporalTerm n i j := by
    rw [temporalTerm, temporalTerm, div_lt_div_iff₀ hM hM]
    exact mul_lt_mul_of_pos_right hcast hM
  unfold computeDistanceMatrix
  rw [if_pos hw, if_pos hw, hs]
  exact add_lt_add_left (mul_lt_mul_of_pos_left hlt hw) _

/-- C7 witness: a concrete instance of `compute_distance_temporal_monotone`
(three items, constant similarity, separations `2 > 1`). -/
theorem compute_distance_temporal_monotone_witness :
    (0 : ℚ) < 1
    ∧ computeDistanceMatrix 3 (fun _ _ => 0) 1 0 1
      < computeDistanceMatrix 3 (fun _ _ => 0) 1 0 2 :=
  ⟨by norm_num,
   compute_distance_temporal_monotone 3 (fun _ _ => 0) 1 0 2 0 1 (by norm_num)
     rfl (by decide)⟩

/-! ### Lemmas about clustering -/

/-- Removing an index never lengthens a list. -/
theorem eraseIdx_length_le {β : Type} :
    ∀ (l : List β) (k : Nat), (l.eraseIdx k).length ≤ l.length
  | [], _ => le_refl _
  | _ :: _, 0 => Nat.le_succ _
  | _ :: xs, k + 1 => Nat.succ_le_succ (eraseIdx_length_le xs k)

/-- A successful merge step never lengthens the cluster state. -/
theorem mergeStep_length_le {link : Linkage} {d : Nat → Nat → ℚ} {t : ℚ}
    {s s2 : List (List Nat)} (h : mergeStep link d t s = some s2) :
    s2.length ≤ s.length := by
  unfold mergeStep at h
  by_cases hlen : s.length ≤ 1
  · rw [if_pos hlen] at h
    cases h
  · rw [if_neg hlen] at h
    cases harg : argminBy (fun p => linkDist link d p.1.2 p.2.2)
        (allPairs s.enum) with
    | none =>
      simp only [harg, Option.none_bind] at h
      exact Option.noConfusion h
    | some p =>
      simp only [harg, Option.some_bind] at h
      by_cases hd : t < linkDist link d p.1.2 p.2.2
      · rw [if_pos hd] at h
        cases h
      · rw [if_neg hd] at h
        cases h
        calc ((s.set p.1.1 (p.1.2 ++ p.2.2)).eraseIdx p.2.1).length
            ≤ (s.set p.1.1 (p.1.2 ++ p.2.2)).length := eraseIdx_length_le _ _
          _ = s.length := List.length_set _ _ _

/-- The merge loop never lengthens the cluster state. -/
theorem aggloLoop_length_le (link : Linkage) (d : Nat → Nat → ℚ) (t : ℚ) :
    ∀ (fuel : Nat) (s : List (List Nat)),
      (aggloLoop link d t fuel s).length ≤ s.length
  | 0, _ => le_refl _
  | fuel + 1, s => by
    rw [aggloLoop]
    cases hm : mergeStep link d t s with
    | none => exact le_refl _
    | some s2 =>
      exact le_trans (aggloLoop_length_le link d t fuel s2) (mergeStep_length_le hm)

/-- A merge allowed by a tight threshold is also performed, identically, by
any looser threshold: the chosen pair does not depend on the threshold. -/
theorem mergeStep_mono {link : Linkage} {d : Nat → Nat → ℚ} {t1 t2 : ℚ}
    {s s2 : List (List Nat)} (h12 : t1 ≤ t2)
    (h : mergeStep link d t1 s = some s2) : mergeStep link d t2 s = some s2 := by
  unfold mergeStep at h ⊢
  by_cases hlen : s.length ≤ 1
  · rw [if_pos hlen] at h
    cases h
  · rw [if_neg hlen] at h ⊢
    cases harg : argminBy (fun p => linkDist link d p.1.2 p.2.2)
        (allPairs s.enum) with
    | none =>
      simp only [harg, Option.none_bind] at h
      exact Option.noConfusion h
    | some p =>
      simp only [harg, Option.some_bind] at h ⊢
      by_cases hd : t1 < linkDist link d p.1.2 p.2.2
      · rw [if_pos hd] at h
        cases h
      · rw [if_neg hd] at h
        rw [if_neg (fun hlt => hd (lt_of_le_of_lt h12 hlt))]
        exact h

/-- With a looser threshold the merge loop ends with at most as many clusters
as with a tighter one, from any common starting state. -/
theorem aggloLoop_length_mono (link : Linkage) (d : Nat → Nat → ℚ)
    {t1 t2 : ℚ} (h12 : t1 ≤ t2) :
    ∀ (fuel : Nat) (s : List (List Nat)),
      (aggloLoop link d t2 fuel s).length ≤ (aggloLoop link d t1 fuel s).length
  | 0, _ => le_refl _
  | fuel + 1, s => by
    rw [aggloLoop, aggloLoop]
    cases hm : mergeStep link d t1 s with
    | none =>
      cases hm2 : mergeStep link d t2 s with
      | none => exact le_refl _
      | some s2 =>
        exact le_trans (aggloLoop_length_le link d t2 fuel s2)
          (mergeStep_length_le hm2)
    | some s2 =>
      rw [mergeStep_mono h12 hm]
      exact aggloLoop_length_mono link d h12 fuel s2

/-- C8: for a fixed distance matrix and linkage, the cluster count returned by
`cluster` is antitone in the threshold — a tighter threshold yields at least
as many clusters. -/
theorem cluster_count_antitone (n : Nat) (d : Nat → Nat → ℚ) (link : Linkage)
    (t1 t2 : ℚ) (h12 : t1 ≤ t2) :
    (cluster n d t2 link).n_clusters ≤ (cluster n d t1 link).n_clusters := by
  unfold cluster
  by_cases hn : n < 2
  · rw [if_pos hn, if_pos hn]
  · rw [if_neg hn, if_neg hn]
    exact aggloLoop_length_mono link d h12 n (initialClusters n)

/-- C8 witness: a concrete instance of `cluster_count_antitone` (two items at
distance `1`, thresholds `1/2 ≤ 1`). -/
theorem cluster_count_antitone_witness :
    (1 : ℚ)/2 ≤ 1
    ∧ (cluster 2 (fun _ _ => 1) 1 Linkage.single).n_clusters
      ≤ (cluster 2 (fun _ _ => 1) (1/2) Linkage.single).n_clusters :=
  ⟨by norm_num,
   cluster_count_antitone 2 (fun _ _ => 1) Linkage.single (1/2) 1 (by norm_num)⟩

/-- C9: `cluster` handles degenerate sizes without error — an empty distance
matrix yields an empty label vector with `n_clusters = 0`, and a `1 × 1`
matrix yields the single label `0` with `n_clusters = 1`. -/
theorem cluster_degenerate (d : Nat → Nat → ℚ) (t : ℚ) (link : Linkage) :
    cluster 0 d t link = ⟨[], 0⟩ ∧ cluster 1 d t link = ⟨[0], 1⟩ :=
  ⟨rfl, rfl⟩

/-! ### Lemmas about parameter validation -/

/-- C5 (counterexample to the claim as stated): the legacy CLI validator
`_validate_args` from src/photosorter/main.py accepts
`distance_threshold = 3.0`, which is above the `2.0` bound the claim requires
it to reject. -/
theorem validate_args_accepts_threshold_above_two :
    validateArgs 3 0 32 = Except.ok () := by
  unfold validateArgs
  rw [if_neg (by norm_num), if_neg (by norm_num), if_neg (by norm_num)]

/-- C5 (amended): the engine-side `validate_pipeline_parameters` rejects every
configuration with `distance_threshold ≤ 0` or `> 2`, an unknown linkage
string, or a negative temporal weight; the pipeline model then returns exactly
the validation error, whatever the numeric work would have been — so the error
is raised before any numeric work and propagated unchanged. -/
theorem validate_pipeline_rejects_invalid (dt tw : ℚ) (bs : Int)
    (pooling preprocess linkage device : Option String) {β : Type}
    (work : PipelineParams → β)
    (h : dt ≤ 0 ∨ 2 < dt ∨ optionInvalid linkage VALID_LINKAGE_OPTIONS = true
      ∨ tw < 0) :
    exceptOk (validatePipelineParameters dt tw bs pooling preprocess linkage
      device) = false
    ∧ errOf (runPipelineModel work dt tw bs pooling preprocess linkage device)
      = errOf (validatePipelineParameters dt tw bs pooling preprocess linkage
          device) := by
  have hmain : exceptOk (validatePipelineParameters dt tw bs pooling preprocess
      linkage device) = false := by
    unfold validatePipelineParameters
    split_ifs with h1 h2 h3 h4 h5 h6 h7 h8
    · rfl
    · rfl
    · rfl
    · rfl
    · rfl
    · rfl
    · rfl
    · rfl
    · rcases h with hc | hc | hc | hc
      · exact absurd hc h1
      · exact absurd hc h2
      · exact absurd hc h7
      · exact absurd hc h3
  refine ⟨hmain, ?_⟩
  unfold runPipelineModel mkPipelineParams
  cases hv : validatePipelineParameters dt tw bs pooling preprocess linkage
      device with
  | ok u =>
    rw [hv] at hmain
    cases hmain
  | error e => simp [Except.map, errOf]

/-- C5 witness: a concrete instance of `validate_pipeline_rejects_invalid`
with `distance_threshold = 3` and otherwise valid parameters. -/
theorem validate_pipeline_rejects_invalid_witness :
    exceptOk (validatePipelineParameters 3 0 32 (some "cls") (some "timm")
      (some "average") (some "cpu")) = false
    ∧ errOf (runPipelineModel (fun _ => (0 : Nat)) 3 0 32 (some "cls")
        (some "timm") (some "average") (some "cpu"))
      = errOf (validatePipelineParameters 3 0 32 (some "cls") (some "timm")
          (some "average") (some "cpu")) :=
  validate_pipeline_rejects_invalid 3 0 32 (some "cls") (some "timm")
    (some "average") (some "cpu") (fun _ => (0 : Nat))
    (Or.inr (Or.inl (by norm_num)))

/-! ### Lemmas about the record-emission loop -/

/-- The emission loop produces one record per emitted index. -/
theorem emitLoop_length {α : Type} [Inhabited α] (paths : List α)
    (labels : List Int) (F : Nat → Int) :
    ∀ (pos : Nat) (l : List Nat), (emitLoop paths labels F pos l).length = l.length
  | _, [] => rfl
  | pos, i :: rest => by
    rw [emitLoop]
    simpa using emitLoop_length paths labels F (pos + 1) rest

/-- The positions emitted from counter `pos` are `pos, pos+1, …` in order. -/
theorem emitLoop_map_position {α : Type} [Inhabited α] (paths : List α)
    (labels : List Int) (F : Nat → Int) :
    ∀ (pos : Nat) (l : List Nat),
      (emitLoop paths labels F pos l).map (fun r => r.position)
        = List.range' pos l.length
  | _, [] => rfl
  | pos, i :: rest => by
    rw [emitLoop, List.length_cons, List.range'_succ]
    simpa using emitLoop_map_position paths labels F (pos + 1) rest

/-- The `original_index` fields are `F` applied to the emitted indices. -/
theorem emitLoop_map_original {α : Type} [Inhabited α] (paths : List α)
    (labels : List Int) (F : Nat → Int) :
    ∀ (pos : Nat) (l : List Nat),
      (emitLoop paths labels F pos l).map (fun r => r.original_index) = l.map F
  | _, [] => rfl
  | pos, i :: rest => by
    rw [emitLoop]
    simpa using emitLoop_map_original paths labels F (pos + 1) rest

/-- The `cluster_id` fields are the labels of the emitted indices. -/
theorem emitLoop_map_cluster {α : Type} [Inhabited α] (paths : List α)
    (labels : List Int) (F : Nat → Int) :
    ∀ (pos : Nat) (l : List Nat),
      (emitLoop paths labels F pos l).map (fun r => r.cluster_id)
        = l.map (fun i => labels.getD i 0)
  | _, [] => rfl
  | pos, i :: rest => by
    rw [emitLoop]
    simpa using emitLoop_map_cluster paths labels F (pos + 1) rest

/-- The `path` fields are the paths of the emitted indices. -/
theorem emitLoop_map_path {α : Type} [Inhabited α] (paths : List α)
    (labels : List Int) (F : Nat → Int) :
    ∀ (pos : Nat) (l : List Nat),
      (emitLoop paths labels F pos l).map (fun r => r.path)
        = l.map (fun i => paths.getD i default)
  | _, [] => rfl
  | pos, i :: rest => by
    rw [emitLoop]
    simpa using emitLoop_map_path paths labels F (pos + 1) rest

/-- Two emission loops agree when their `original_index` functions agree on
the emitted indices. -/
theorem emitLoop_congr {α : Type} [Inhabited α] (paths : List α)
    (labels : List Int) (F G : Nat → Int) :
    ∀ (pos : Nat) (l : List Nat), (∀ i ∈ l, F i = G i) →
      emitLoop paths labels F pos l = emitLoop paths labels G pos l
  | _, [], _ => rfl
  | pos, i :: rest, h => by
    rw [emitLoop, emitLoop, h i (List.mem_cons_self _ _),
      emitLoop_congr paths labels F G (pos + 1) rest
        (fun j hj => h j (List.mem_cons_of_mem _ hj))]

/-- Filtering emitted records by `cluster_id` and reading `original_index`
equals filtering the emitted indices by label and applying `F`. -/
theorem emitLoop_filter_map_original {α : Type} [Inhabited α] (paths : List α)
    (labels : List Int) (F : Nat → Int) (c : Int) :
    ∀ (pos : Nat) (l : List Nat),
      ((emitLoop paths labels F pos l).filter
          (fun r => r.cluster_id == c)).map (fun r => r.original_index)
        = (l.filter (fun i => labels.getD i 0 == c)).map F
  | _, [] => rfl
  | pos, i :: rest => by
    have hrec := emitLoop_filter_map_original paths labels F c (pos + 1) rest
    rw [emitLoop]
    by_cases hc : labels.getD i 0 = c
    · simp_all [List.filter_cons]
    · simp_all [List.filter_cons]

/-- Filtering emitted records by `cluster_id` and reading `path` equals
filtering the emitted indices by label and reading the path. -/
theorem emitLoop_filter_map_path {α : Type} [Inhabited α] (paths : List α)
    (labels : List Int) (F : Nat → Int) (c : Int) :
    ∀ (pos : Nat) (l : List Nat),
      ((emitLoop paths labels F pos l).filter
          (fun r => r.cluster_id == c)).map (fun r => r.path)
        = (l.filter (fun i => labels.getD i 0 == c)).map
            (fun i => paths.getD i default)
  | _, [] => rfl
  | pos, i :: rest => by
    have hrec := emitLoop_filter_map_path paths labels F c (pos + 1) rest
    rw [emitLoop]
    by_cases hc : labels.getD i 0 = c
    · simp_all [List.filter_cons]
    · simp_all [List.filter_cons]

/-! ### Lemmas about cluster keys and the key sort -/

/-- Membership in the first-occurrence key list is membership in the labels. -/
theorem mem_firstOccKeys (c : Int) :
    ∀ (l : List Int), c ∈ firstOccKeys l ↔ c ∈ l
  | [] => Iff.rfl
  | x :: xs => by
    rw [firstOccKeys]
    constructor
    · intro h
      rcases List.mem_cons.mp h with rfl | h2
      · exact List.mem_cons_self _ _
      · exact List.mem_cons_of_mem _
          ((mem_firstOccKeys c xs).mp (List.mem_of_mem_filter h2))
    · intro h
      rcases List.mem_cons.mp h with rfl | h2
      · exact List.mem_cons_self _ _
      · by_cases hcx : c = x
        · subst hcx
          exact List.mem_cons_self _ _
        · refine List.mem_cons_of_mem _ (List.mem_filter.mpr
            ⟨(mem_firstOccKeys c xs).mpr h2, ?_⟩)
          simpa using hcx

/-- The first-occurrence key list has no duplicates. -/
theorem nodup_firstOccKeys : ∀ (l : List Int), (firstOccKeys l).Nodup
  | [] => List.nodup_nil
  | x :: xs => by
    rw [firstOccKeys]
    refine List.Pairwise.cons (fun y hy => ?_) ((nodup_firstOccKeys xs).filter _)
    have h2 : y ≠ x := by simpa using (List.mem_filter.mp hy).2
    exact fun hxy => h2 hxy.symm

/-- Inserting into a key-sorted list is a permutation of consing. -/
theorem insertByKey_perm (key : Int → Nat) (c : Int) :
    ∀ (l : List Int), List.Perm (insertByKey key c l) (c :: l)
  | [] => List.Perm.refl _
  | x :: xs => by
    rw [insertByKey]
    split
    · exact List.Perm.refl _
    · exact List.Perm.trans ((insertByKey_perm key c xs).cons x)
        (List.Perm.swap c x xs)

/-- Inserting into a key-sorted list keeps it key-sorted. -/
theorem insertByKey_pairwise (key : Int → Nat) (c : Int) :
    ∀ (l : List Int), l.Pairwise (fun a b => key a ≤ key b) →
      (insertByKey key c l).Pairwise (fun a b => key a ≤ key b)
  | [], _ => List.pairwise_singleton _ _
  | x :: xs, h => by
    rw [insertByKey]
    split
    next hc =>
      refine List.Pairwise.cons (fun y hy => ?_) h
      rcases List.mem_cons.mp hy with rfl | hy2
      · exact hc
      · exact le_trans hc (List.rel_of_pairwise_cons h hy2)
    next hc =>
      refine List.Pairwise.cons (fun y hy => ?_)
        (insertByKey_pairwise key c xs (List.Pairwise.of_cons h))
      have hmem : y ∈ c :: xs := (insertByKey_perm key c xs).mem_iff.mp hy
      rcases List.mem_cons.mp hmem with rfl | hy2
      · exact le_of_not_le hc
      · exact List.rel_of_pairwise_cons h hy2

/-- The key sort permutes its input. -/
theorem sortByKey_perm (key : Int → Nat) :
    ∀ (l : List Int), List.Perm (sortByKey key l) l
  | [] => List.Perm.refl _
  | x :: xs =>
    List.Perm.trans (insertByKey_perm key x (sortByKey key xs))
      ((sortByKey_perm key xs).cons x)

/-- The key sort output is key-sorted. -/
theorem sortByKey_pairwise (key : Int → Nat) :
    ∀ (l : List Int), (sortByKey key l).Pairwise (fun a b => key a ≤ key b)
  | [] => List.Pairwise.nil
  | x :: xs => insertByKey_pairwise key x (sortByKey key xs)
    (sortByKey_pairwise key xs)

/-! ### Lemmas about cluster members and the emitted index order -/

/-- Characterises membership in a cluster member list. -/
theorem mem_clusterMembers (labels : List Int) (c : Int) (i : Nat) :
    i ∈ clusterMembers labels c ↔ i < labels.length ∧ labels.getD i 0 = c := by
  rw [clusterMembers, List.mem_filter, List.mem_range]
  constructor
  · exact fun h => ⟨h.1, by simpa using h.2⟩
  · exact fun h => ⟨h.1, by simpa using h.2⟩

/-- Cluster member lists are strictly increasing. -/
theorem clusterMembers_pairwise (labels : List Int) (c : Int) :
    (clusterMembers labels c).Pairwise (· < ·) :=
  (List.pairwise_lt_range labels.length).filter _

/-- The head of a cluster member list is its minimum: `clusters[cid][0]` is
the earliest member index. -/
theorem firstIdx_le_mem (labels : List Int) (c : Int) (i : Nat)
    (h : i ∈ clusterMembers labels c) : firstIdx labels c ≤ i := by
  rw [firstIdx]
  have hp := clusterMembers_pairwise labels c
  cases hm : clusterMembers labels c with
  | nil =>
    rw [hm] at h
    cases h
  | cons x xs =>
    rw [hm] at h hp
    rcases List.mem_cons.mp h with rfl | h2
    · exact le_refl _
    · exact le_of_lt (List.rel_of_pairwise_cons hp h2)

/-- A label looked up at an in-range index occurs in the label list. -/
theorem getD_mem_of_lt (labels : List Int) (i : Nat) (h : i < labels.length) :
    labels.getD i 0 ∈ labels := by
  rw [List.getD_eq_getElem _ _ h]
  exact List.getElem_mem h

/-- An absent label has no members. -/
theorem clusterMembers_eq_nil (labels : List Int) (c : Int)
    (h : c ∉ labels) : clusterMembers labels c = [] := by
  rw [clusterMembers, List.filter_eq_nil_iff]
  intro i hi
  intro hc
  have : labels.getD i 0 = c := by simpa using hc
  exact h (this ▸ getD_mem_of_lt labels i (List.mem_range.mp hi))

/-- The sorted cluster id list is a permutation of the first-occurrence keys:
it has no duplicates and contains exactly the labels that occur. -/
theorem sortedClusterIds_perm (labels : List Int) :
    List.Perm (sortedClusterIds labels) (firstOccKeys labels) :=
  sortByKey_perm _ _

/-- Membership in the sorted cluster ids is occurrence in the labels. -/
theorem mem_sortedClusterIds (labels : List Int) (c : Int) :
    c ∈ sortedClusterIds labels ↔ c ∈ labels :=
  Iff.trans (sortedClusterIds_perm labels).mem_iff (mem_firstOccKeys c labels)

/-- The sorted cluster ids have no duplicates. -/
theorem nodup_sortedClusterIds (labels : List Int) :
    (sortedClusterIds labels).Nodup :=
  (sortedClusterIds_perm labels).nodup_iff.mpr (nodup_firstOccKeys labels)

/-- Concatenating, over a duplicate-free list of keys covering all key values
of `xs`, the sublists of `xs` with each key, permutes `xs`. -/
theorem flatMap_filter_perm (f : Nat → Int) :
    ∀ (cs : List Int), cs.Nodup → ∀ (xs : List Nat), (∀ x ∈ xs, f x ∈ cs) →
      List.Perm (cs.flatMap (fun c => xs.filter (fun x => f x == c))) xs
  | [], _, xs, hcov => by
    have hxs : xs = [] :=
      List.eq_nil_iff_forall_not_mem.mpr (fun x hx => by simpa using hcov x hx)
    simp [hxs]
  | c :: cs, hnd, xs, hcov => by
    rw [List.flatMap_cons]
    have hstep : cs.flatMap (fun c2 => xs.filter (fun x => f x == c2))
        = cs.flatMap (fun c2 =>
            (xs.filter (fun x => !(f x == c))).filter (fun x => f x == c2)) := by
      apply List.flatMap_congr
      intro c2 hc2
      rw [List.filter_filter]
      apply List.filter_congr
      intro x hx
      by_cases hfx : f x = c2
      · have hne : c2 ≠ c := fun h => (List.nodup_cons.mp hnd).1 (h ▸ hc2)
        simp [hfx, hne]
      · simp [hfx]
    rw [hstep]
    have hrec := flatMap_filter_perm f cs (List.nodup_cons.mp hnd).2
      (xs.filter (fun x => !(f x == c)))
      (fun x hx => by
        have hxmem : x ∈ xs := List.mem_of_mem_filter hx
        have hxne : ¬(f x == c) = true := by
          simpa using (List.mem_filter.mp hx).2
        rcases List.mem_cons.mp (hcov x hxmem) with hceq | hmem
        · exact absurd (by simpa using hceq) hxne
        · exact hmem)
    exact List.Perm.trans (List.Perm.append_left _ hrec)
      (List.filter_append_perm _ xs)

/-- The emitted index list is a permutation of `0, …, N-1`: every item index
appears exactly once. -/
theorem emittedIndices_perm (labels : List Int) :
    List.Perm (emittedIndices labels) (List.range labels.length) := by
  rw [emittedIndices]
  have h := flatMap_filter_perm (fun i => labels.getD i 0)
    (sortedClusterIds labels) (nodup_sortedClusterIds labels)
    (List.range labels.length)
    (fun i hi => (mem_sortedClusterIds labels _).mpr
      (getD_mem_of_lt labels i (List.mem_range.mp hi)))
  simpa [clusterMembers] using h

/-- Every emitted index is in range. -/
theorem emittedIndices_lt (labels : List Int) (i : Nat)
    (h : i ∈ emittedIndices labels) : i < labels.length := by
  have := (emittedIndices_perm labels).mem_iff.mp h
  simpa using this

/-- The emitted index list has as many entries as there are labels. -/
theorem emittedIndices_length (labels : List Int) :
    (emittedIndices labels).length = labels.length := by
  simpa using (emittedIndices_perm labels).length_eq

/-- Filtering the emitted indices by one label recovers exactly that cluster
member list. -/
theorem emittedIndices_filter (labels : List Int) (c : Int) :
    (emittedIndices labels).filter (fun i => labels.getD i 0 == c)
      = clusterMembers labels c := by
  rw [emittedIndices, List.filter_flatMap]
  have key : ∀ (cs : List Int), cs.Nodup →
      (cs.flatMap (fun c2 =>
          (clusterMembers labels c2).filter (fun i => labels.getD i 0 == c)))
        = if c ∈ cs then clusterMembers labels c else [] := by
    intro cs
    induction cs with
    | nil => simp
    | cons c2 cs2 ih =>
      intro hnd
      rw [List.flatMap_cons, ih (List.nodup_cons.mp hnd).2]
      by_cases hc2 : c2 = c
      · subst hc2
        have hself : (clusterMembers labels c2).filter
            (fun i => labels.getD i 0 == c2) = clusterMembers labels c2 :=
          List.filter_eq_self.mpr (fun i hi => by
            have h2 := ((mem_clusterMembers labels c2 i).mp hi).2
            show (labels.getD i 0 == c2) = true
            rw [beq_iff_eq]
            exact h2)
        have hnot : c2 ∉ cs2 := (List.nodup_cons.mp hnd).1
        rw [hself, if_neg hnot, if_pos (List.mem_cons_self _ _), List.append_nil]
      · have hnil : (clusterMembers labels c2).filter
            (fun i => labels.getD i 0 == c) = [] :=
          List.filter_eq_nil_iff.mpr (fun i hi hci => by
            have h2 := ((mem_clusterMembers labels c2 i).mp hi).2
            simp only [beq_iff_eq] at hci
            exact hc2 (h2.symm.trans hci))
        rw [hnil, List.nil_append]
        by_cases hmem : c ∈ cs2
        · rw [if_pos hmem, if_pos (List.mem_cons_of_mem _ hmem)]
        · rw [if_neg hmem, if_neg (fun hx => by
            rcases List.mem_cons.mp hx with h1 | h2
            · exact hc2 h1.symm
            · exact hmem h2)]
  rw [key (sortedClusterIds labels) (nodup_sortedClusterIds labels)]
  by_cases hmem : c ∈ sortedClusterIds labels
  · rw [if_pos hmem]
  · rw [if_neg hmem,
      clusterMembers_eq_nil labels c
        (fun hl => hmem ((mem_sortedClusterIds labels c).mpr hl))]

/-- Elements of a cluster member list carry that cluster label. -/
theorem membersMap_eq (labels : List Int) (c x : Int)
    (h : x ∈ (clusterMembers labels c).map (fun i => labels.getD i 0)) :
    x = c := by
  rcases List.mem_map.mp h with ⟨i, hi, rfl⟩
  exact ((mem_clusterMembers labels c i).mp hi).2

/-- A list whose elements all equal `c` is pairwise for any relation holding
at `(c, c)`. -/
theorem pairwise_of_all_eq (R : Int → Int → Prop) (c : Int) (hR : R c c) :
    ∀ (l : List Int), (∀ x ∈ l, x = c) → l.Pairwise R
  | [], _ => List.Pairwise.nil
  | x :: xs, h => by
    refine List.Pairwise.cons (fun y hy => ?_)
      (pairwise_of_all_eq R c hR xs (fun z hz => h z (List.mem_cons_of_mem _ hz)))
    rw [h x (List.mem_cons_self _ _), h y (List.mem_cons_of_mem _ hy)]
    exact hR

/-- The labels along the emitted index list are ordered by earliest cluster
member: blocks appear by ascending first index. -/
theorem emitted_labels_pairwise (labels : List Int) :
    ((emittedIndices labels).map (fun i => labels.getD i 0)).Pairwise
      (fun c d => firstIdx labels c ≤ firstIdx labels d) := by
  rw [emittedIndices, List.map_flatMap, List.flatMap_def, List.pairwise_flatten]
  constructor
  · intro blk hblk
    rcases List.mem_map.mp hblk with ⟨c, _, rfl⟩
    exact pairwise_of_all_eq (fun c d => firstIdx labels c ≤ firstIdx labels d)
      c (le_refl _) _ (fun x hx => membersMap_eq labels c x hx)
  · rw [List.pairwise_map]
    apply List.Pairwise.imp ?_
      (sortByKey_pairwise (firstIdx labels) (firstOccKeys labels))
    intro a b hab x hx y hy
    rw [membersMap_eq labels a x hx, membersMap_eq labels b y hy]
    exact hab

/-- In an emitted record sequence, a record whose cluster has a strictly
earlier first member strictly precedes (by position) any record of a cluster
with a later first member. -/
theorem emitLoop_cluster_precedes {α : Type} [Inhabited α] (paths : List α)
    (labels : List Int) (F : Nat → Int) (a b : OrderedPhoto α)
    (ha : a ∈ emitLoop paths labels F 0 (emittedIndices labels))
    (hb : b ∈ emitLoop paths labels F 0 (emittedIndices labels))
    (hk : firstIdx labels a.cluster_id < firstIdx labels b.cluster_id) :
    a.position < b.position := by
  have hmp : (emitLoop paths labels F 0 (emittedIndices labels)).map
      (fun r => r.position) = List.range labels.length := by
    rw [emitLoop_map_position, emittedIndices_length]
    exact (List.range_eq_range' _).symm
  have hpos : (emitLoop paths labels F 0 (emittedIndices labels)).Pairwise
      (fun r s => r.position < s.position) :=
    List.pairwise_map.mp (by rw [hmp]; exact List.pairwise_lt_range _)
  have hcid : (emitLoop paths labels F 0 (emittedIndices labels)).Pairwise
      (fun r s => firstIdx labels r.cluster_id
        ≤ firstIdx labels s.cluster_id) :=
    (@List.pairwise_map (OrderedPhoto α) Int (fun r => r.cluster_id)
      (fun c d => firstIdx labels c ≤ firstIdx labels d)
      (emitLoop paths labels F 0 (emittedIndices labels))).mp (by
        rw [emitLoop_map_cluster]
        exact emitted_labels_pairwise labels)
  rcases List.mem_iff_get.mp ha with ⟨na, hna⟩
  rcases List.mem_iff_get.mp hb with ⟨nb, hnb⟩
  rcases Nat.lt_trichotomy na.1 nb.1 with hlt | heq | hgt
  · have h2 := List.pairwise_iff_get.mp hpos na nb hlt
    rw [hna, hnb] at h2
    exact h2
  · exfalso
    have hab : na = nb := Fin.ext heq
    rw [hab, hnb] at hna
    rw [hna] at hk
    exact lt_irrefl _ hk
  · exfalso
    have h2 := List.pairwise_iff_get.mp hcid nb na hgt
    rw [hna, hnb] at h2
    exact absurd hk (not_lt.mpr h2)

/-- C1: for equal-length inputs both `build_ordered_sequence` implementations
return exactly `N` records whose positions are exactly `0, …, N-1`, and every
input item index is emitted exactly once (the emitted index list permutes
`0, …, N-1`; in the CLI implementation the `original_index` fields therefore
permute `0, …, N-1` as well). -/
theorem build_ordered_sequence_complete {α : Type} [Inhabited α]
    (paths : List α) (labels origIdx : List Int)
    (hl : labels.length = paths.length) (ho : origIdx.length = paths.length) :
    (buildOrderedSequence paths labels).length = paths.length
    ∧ (buildOrderedSequence paths labels).map (fun r => r.position)
        = List.range paths.length
    ∧ List.Perm ((buildOrderedSequence paths labels).map
        (fun r => r.original_index))
        ((List.range paths.length).map (fun i => Int.ofNat i))
    ∧ List.Perm (emittedIndices labels) (List.range paths.length)
    ∧ (buildOrderedSequenceEngine paths labels (some origIdx)).map List.length
        = Except.ok paths.length
    ∧ (buildOrderedSequenceEngine paths labels (some origIdx)).map
        (List.map (fun r => r.position)) = Except.ok (List.range paths.length) := by
  have hperm : List.Perm (emittedIndices labels) (List.range paths.length) := by
    rw [← hl]
    exact emittedIndices_perm labels
  have hlen : (buildOrderedSequence paths labels).length = paths.length := by
    rw [buildOrderedSequence, emitLoop_length, emittedIndices_length, hl]
  have hpos : (buildOrderedSequence paths labels).map (fun r => r.position)
      = List.range paths.length := by
    rw [buildOrderedSequence, emitLoop_map_position, emittedIndices_length, hl]
    exact (List.range_eq_range' _).symm
  have hengine : buildOrderedSequenceEngine paths labels (some origIdx)
      = Except.ok (emitLoop paths labels (fun i => origIdx.getD i 0) 0
          (emittedIndices labels)) := by
    simp only [buildOrderedSequenceEngine, Option.getD_some]
    rw [if_neg (fun hne => hne ho)]
  refine ⟨hlen, hpos, ?_, hperm, ?_, ?_⟩
  · rw [buildOrderedSequence, emitLoop_map_original]
    exact hperm.map (fun i => Int.ofNat i)
  · rw [hengine]
    show Except.ok _ = _
    rw [emitLoop_length, emittedIndices_length, hl]
  · rw [hengine]
    show Except.ok _ = _
    rw [emitLoop_map_position, emittedIndices_length, hl]
    rw [← List.range_eq_range']

/-- C1 witness: a concrete instance of `build_ordered_sequence_complete`. -/
theorem build_ordered_sequence_complete_witness :
    (buildOrderedSequence [5] [0]).length = 1
    ∧ (buildOrderedSequence [5] [0]).map (fun r => r.position) = List.range 1
    ∧ List.Perm ((buildOrderedSequence [5] [0]).map
        (fun r => r.original_index)) ((List.range 1).map (fun i => Int.ofNat i))
    ∧ List.Perm (emittedIndices [0]) (List.range 1)
    ∧ (buildOrderedSequenceEngine [5] [0] (some [7])).map List.length
        = Except.ok 1
    ∧ (buildOrderedSequenceEngine [5] [0] (some [7])).map
        (List.map (fun r => r.position)) = Except.ok (List.range 1) :=
  build_ordered_sequence_complete [5] [0] [7] rfl rfl

/-- C2 (amended): both implementations order cluster groups by the earliest
in-batch member index (`clusters[cid][0]`, which is the minimum of the member
indices): a record of a cluster with strictly smaller first member index
always precedes a record of a cluster with a larger one.  When
`original_indices` is the default identity this coincides with the minimum
original index; for a non-monotone `original_indices` it need not (see the
counterexample). -/
theorem build_ordered_sequence_cluster_order {α : Type} [Inhabited α]
    (paths : List α) (labels : List Int)
    (original_indices : Option (List Int)) :
    (∀ c, ∀ i ∈ clusterMembers labels c, firstIdx labels c ≤ i)
    ∧ (∀ a b : OrderedPhoto α, a ∈ buildOrderedSequence paths labels →
        b ∈ buildOrderedSequence paths labels →
        firstIdx labels a.cluster_id < firstIdx labels b.cluster_id →
        a.position < b.position)
    ∧ (∀ (out : List (OrderedPhoto α)) (a b : OrderedPhoto α),
        buildOrderedSequenceEngine paths labels original_indices
          = Except.ok out →
        a ∈ out → b ∈ out →
        firstIdx labels a.cluster_id < firstIdx labels b.cluster_id →
        a.position < b.position) := by
  refine ⟨fun c i hi => firstIdx_le_mem labels c i hi, ?_, ?_⟩
  · intro a b ha hb hk
    exact emitLoop_cluster_precedes paths labels _ a b ha hb hk
  · intro out a b hout ha hb hk
    simp only [buildOrderedSequenceEngine] at hout
    split at hout
    · exact Except.noConfusion hout
    · have hO := Except.ok.inj hout
      rw [← hO] at ha hb
      exact emitLoop_cluster_precedes paths labels _ a b ha hb hk

/-- C2 witness: a concrete instance of `build_ordered_sequence_cluster_order`
on labels `[1,0,1,0]` — the record of cluster `1` (first member `0`) precedes
the record of cluster `0` (first member `1`). -/
theorem build_ordered_sequence_cluster_order_witness :
    (⟨0, 0, 10, 1⟩ : OrderedPhoto Nat).position
      < (⟨2, 1, 20, 0⟩ : OrderedPhoto Nat).position :=
  (build_ordered_sequence_cluster_order [10, 20, 30, 40] [1, 0, 1, 0]
      none).2.1 ⟨0, 0, 10, 1⟩ ⟨2, 1, 20, 0⟩ (by decide) (by decide) (by decide)

/-- C2 (counterexample to the claim as stated): with the non-monotone
`original_indices = [5, 3]`, cluster `1` has the strictly smaller minimum
original index (`3 < 5`), yet the engine implementation emits the cluster `0`
record first (position `0`) — cluster groups are ordered by first in-batch
index, not by minimum `original_indices` value. -/
theorem build_ordered_sequence_min_original_counterexample :
    buildOrderedSequenceEngine [10, 20] [0, 1] (some [5, 3])
      = Except.ok [⟨0, 5, 10, 0⟩, ⟨1, 3, 20, 1⟩]
    ∧ clusterMinOrig [0, 1] [5, 3] 1 < clusterMinOrig [0, 1] [5, 3] 0 := by
  exact ⟨by rfl, by decide⟩

/-- C3: within each cluster the emitted records keep the original relative
input order (the CLI `original_index` fields of cluster `c` are exactly the
member indices of `c` in increasing input order; the engine records of
cluster `c` carry exactly the paths of those members in that order), and the
emitted positions are strictly increasing from `0` (they equal
`0, …, N-1` in order). -/
theorem build_ordered_sequence_within_cluster_order {α : Type} [Inhabited α]
    (paths : List α) (labels : List Int) (hl : labels.length = paths.length) :
    (∀ c, ((buildOrderedSequence paths labels).filter
        (fun r => r.cluster_id == c)).map (fun r => r.original_index)
      = (clusterMembers labels c).map (fun i => Int.ofNat i))
    ∧ (buildOrderedSequence paths labels).map (fun r => r.position)
        = List.range paths.length
    ∧ (∀ (oi : Option (List Int)) (out : List (OrderedPhoto α)),
        buildOrderedSequenceEngine paths labels oi = Except.ok out →
        ∀ c, (out.filter (fun r => r.cluster_id == c)).map (fun r => r.path)
          = (clusterMembers labels c).map (fun i => paths.getD i default)) := by
  refine ⟨?_, ?_, ?_⟩
  · intro c
    rw [buildOrderedSequence, emitLoop_filter_map_original,
      emittedIndices_filter]
  · rw [buildOrderedSequence, emitLoop_map_position, emittedIndices_length, hl]
    exact (List.range_eq_range' _).symm
  · intro oi out hout c
    simp only [buildOrderedSequenceEngine] at hout
    split at hout
    · exact Except.noConfusion hout
    · have hO := Except.ok.inj hout
      rw [← hO, emitLoop_filter_map_path, emittedIndices_filter]

/-- C3 witness: a concrete instance of
`build_ordered_sequence_within_cluster_order` on labels `[0,1,0,1,0,1]` —
cluster `0` keeps order `[0,2,4]` and cluster `1` keeps order `[1,3,5]`. -/
theorem build_ordered_sequence_within_cluster_order_witness :
    ((buildOrderedSequence [10, 20, 30, 40, 50, 60]
        [0, 1, 0, 1, 0, 1]).filter (fun r => r.cluster_id == 0)).map
        (fun r => r.original_index)
      = (clusterMembers [0, 1, 0, 1, 0, 1] 0).map (fun i => Int.ofNat i)
    ∧ ((buildOrderedSequence [10, 20, 30, 40, 50, 60]
        [0, 1, 0, 1, 0, 1]).filter (fun r => r.cluster_id == 1)).map
        (fun r => r.original_index)
      = (clusterMembers [0, 1, 0, 1, 0, 1] 1).map (fun i => Int.ofNat i)
    ∧ (buildOrderedSequence [10, 20, 30, 40, 50, 60]
        [0, 1, 0, 1, 0, 1]).map (fun r => r.position) = List.range 6 :=
  ⟨(build_ordered_sequence_within_cluster_order [10, 20, 30, 40, 50, 60]
      [0, 1, 0, 1, 0, 1] rfl).1 0,
   (build_ordered_sequence_within_cluster_order [10, 20, 30, 40, 50, 60]
      [0, 1, 0, 1, 0, 1] rfl).1 1,
   (build_ordered_sequence_within_cluster_order [10, 20, 30, 40, 50, 60]
      [0, 1, 0, 1, 0, 1] rfl).2.1⟩

/-- C4 (counterexample to the claim as stated): a labels vector shorter than
the items list is silently tolerated by both implementations — no error is
raised and records are produced only for the labelled prefix. -/
theorem build_ordered_sequence_labels_mismatch_counterexample :
    buildOrderedSequence [10, 20] [0] = [⟨0, 0, 10, 0⟩]
    ∧ buildOrderedSequenceEngine [10, 20] [0] none
        = Except.ok [⟨0, 0, 10, 0⟩]
    ∧ ([0] : List Int).length ≠ ([10, 20] : List Nat).length := by
  exact ⟨by rfl, by rfl, by decide⟩

/-- C4 (amended): the engine implementation raises its invalid-argument error
exactly when a provided `original_indices` has a length different from the
items list; with `original_indices` omitted it never errors, and neither
implementation checks the labels length. -/
theorem build_ordered_sequence_error_iff {α : Type} [Inhabited α]
    (paths : List α) (labels origIdx : List Int) :
    (exceptOk (buildOrderedSequenceEngine paths labels (some origIdx)) = false
      ↔ origIdx.length ≠ paths.length)
    ∧ exceptOk (buildOrderedSequenceEngine paths labels none) = true := by
  constructor
  · simp only [buildOrderedSequenceEngine, Option.getD_some]
    by_cases h : origIdx.length = paths.length
    · rw [if_neg (fun hne => hne h)]
      simp [exceptOk, h]
    · rw [if_pos h]
      simp [exceptOk, h]
  · simp only [buildOrderedSequenceEngine, Option.getD_none]
    rw [if_neg (by simp)]
    rfl

/-- C10: with `original_indices` omitted, the engine implementation of
`build_ordered_sequence` returns, record for record, exactly the sequence of
the standalone CLI implementation. -/
theorem build_ordered_sequence_impls_equiv {α : Type} [Inhabited α]
    (paths : List α) (labels : List Int)
    (hl : labels.length = paths.length) :
    buildOrderedSequenceEngine paths labels none
      = Except.ok (buildOrderedSequence paths labels) := by
  simp only [buildOrderedSequenceEngine, Option.getD_none, buildOrderedSequence]
  rw [if_neg (by simp)]
  refine congrArg Except.ok (emitLoop_congr paths labels _ _ 0
    (emittedIndices labels) (fun i hi => ?_))
  have hilt : i < paths.length := hl ▸ emittedIndices_lt labels i hi
  rw [List.getD_eq_getElem _ _ (by simpa using hilt)]
  simp

/-- C10 witness: a concrete instance of
`build_ordered_sequence_impls_equiv`. -/
theorem build_ordered_sequence_impls_equiv_witness :
    buildOrderedSequenceEngine [10, 20, 30] [0, 1, 0] none
      = Except.ok (buildOrderedSequence [10, 20, 30] [0, 1, 0]) :=
  build_ordered_sequence_impls_equiv [10, 20, 30] [0, 1, 0] rfl

end PhotoSorter
